import Mathlib

/-!
Verification of `tb_chainer/writer.py` (tensorboard-chainer).

The file embeds the writer module shallowly:
* pure fragments of the Python become Lean functions;
* the event record, the step coercion and the enqueue path of
  `SummaryToEventTransformer` become explicit state-passing functions
  returning `Except` for the code paths that can raise;
* components of the repository that are not part of the writer module
  (the generated protobuf records, `EventFileWriter`) are modelled from the
  specification where the spec constrains them, each such definition marked
  `Modelled from the spec:` in its doc comment.

Numbers: Python floats are embedded as exact rationals (`ℚ`), machine-level
rounding is idealized away; Python integers are `Int`.
-/

namespace TbChainer

/-- The error taxonomy of the spec, as far as the claims need it:
`invalidArgument` covers a malformed step value or malformed payload,
raised synchronously to the caller. -/
inductive WriterError where
  | invalidArgument
  deriving Repr, DecidableEq

/-- A Python value passed as a `global_step` argument.  For the purposes of
step coercion a value either is numeric — `int()` truncates it toward zero —
or is non-numeric, in which case `int()` raises. -/
inductive PyVal where
  | num : ℚ → PyVal
  | nonNum : PyVal
  deriving Repr, DecidableEq

/-- Python's `int()` coercion as applied at `writer.py:122` (`int(step)`):
a numeric value is truncated toward zero, a non-numeric value raises
(`TypeError`/`ValueError`, an invalid-argument failure). -/
def pyInt : PyVal → Except WriterError Int
  | .num q => .ok (q.num.tdiv q.den)
  | .nonNum => .error .invalidArgument

/-- Modelled from the spec: summary payloads (`summary_pb2.Summary`,
generated protobuf code under `tb_chainer/src/`, not part of the writer
module) are opaque serializable records; serialization round-trips through
parsing.  The record is abstracted to its serialized contents. -/
structure Summary where
  data : List Nat
  deriving Repr, DecidableEq

/-- Method `Summary.SerializeToString`: the serialized byte form of the record. -/
def Summary.SerializeToString (s : Summary) : List Nat := s.data

/-- Method `Summary.ParseFromString`: parse the serialized byte form back into a
record (`summ.ParseFromString(summary)` at `writer.py:96`). -/
def Summary.ParseFromString (b : List Nat) : Summary := ⟨b⟩

/-- Modelled from the spec: a `SessionLog` protobuf record, opaque. -/
structure SessionLog where
  data : List Nat
  deriving Repr, DecidableEq

/-- Modelled from the spec: a graph protobuf record, opaque but
serializable (`graph.SerializeToString()` at `writer.py:104`). -/
structure GraphDef where
  data : List Nat
  deriving Repr, DecidableEq

/-- Method `GraphDef.SerializeToString`: serialized byte form of the graph. -/
def GraphDef.SerializeToString (g : GraphDef) : List Nat := g.data

/-- The payload carried by an event: exactly one of the `oneof` arms the
writer module constructs (`Event(summary=...)`, `Event(graph_def=...)`,
`Event(session_log=...)`). -/
inductive Payload where
  | summary : Summary → Payload
  | graphDef : List Nat → Payload
  | sessionLog : SessionLog → Payload
  deriving Repr, DecidableEq

/-- The `Event` record: a payload plus `wall_time` (seconds since epoch)
and an optional step. -/
structure Event where
  wall_time : ℚ
  step : Option Int
  payload : Payload
  deriving Repr, DecidableEq

/-- Modelled from the spec: assignment to the event record's step field
(`event.step = ...` at `writer.py:122`; `event_pb2` is generated protobuf
code not part of the writer module).  The spec's data model declares
`step: optional non-negative integer` and its error taxonomy makes a
malformed step an invalid-argument failure, so assigning a negative
integer is rejected rather than clamped or accepted. -/
def Event.setStep (e : Event) (n : Int) : Except WriterError Event :=
  if n < 0 then .error .invalidArgument else .ok { e with step := some n }

/-- The state the writer module sees of its `event_writer` collaborator:
the sequence of events handed to `event_writer.add_event`, in order. -/
abbrev EventSink := List Event

/-- Embedding of `SummaryToEventTransformer._add_event` (`writer.py:119-123`):
stamp the event with the caller's current wall-clock time (`now` stands
for the value of `time.time()` on the caller's thread), coerce and set the
step when one was provided, and only then hand the event to the contained
event writer.  A raise on the step path leaves the sink untouched. -/
def addEventTransform (now : ℚ) (event : Event) (step : Option PyVal)
    (sink : EventSink) : Except WriterError EventSink := do
  let event := { event with wall_time := now }
  let event ← match step with
    | none => pure event
    | some s => do
        let n ← pyInt s
        event.setStep n
  .ok (sink ++ [event])

/-- The argument of `add_summary`: a `Summary` record, optionally
serialized as a string of bytes (`writer.py:94`). -/
inductive SummaryArg where
  | bytes : List Nat → SummaryArg
  | msg : Summary → SummaryArg
  deriving Repr, DecidableEq

/-- Embedding of `SummaryToEventTransformer.add_summary` (`writer.py:79-99`): a byte
argument is parsed back into a record, the record is wrapped into an
`Event` and passed to `_add_event` with the given step. -/
def add_summary (now : ℚ) (arg : SummaryArg) (global_step : Option PyVal)
    (sink : EventSink) : Except WriterError EventSink :=
  let summary := match arg with
    | .bytes b => Summary.ParseFromString b
    | .msg s => s
  addEventTransform now { wall_time := 0, step := none, payload := .summary summary }
    global_step sink

/-- Embedding of `SummaryToEventTransformer.add_session_log` (`writer.py:107-117`). -/
def add_session_log (now : ℚ) (session_log : SessionLog)
    (global_step : Option PyVal) (sink : EventSink) :
    Except WriterError EventSink :=
  addEventTransform now { wall_time := 0, step := none, payload := .sessionLog session_log }
    global_step sink

/-- Embedding of `SummaryToEventTransformer.add_graph` (`writer.py:101-105`): the graph
is serialized into the event and no step is passed. -/
def add_graph (now : ℚ) (g : GraphDef) (sink : EventSink) :
    Except WriterError EventSink :=
  addEventTransform now { wall_time := 0, step := none, payload := .graphDef g.SerializeToString }
    none sink

/-- Python exception semantics for the caller's state: a call that raises
leaves the previous state in place, a call that returns yields the new
state. -/
def runOrKeep (sink : EventSink) (r : Except WriterError EventSink) : EventSink :=
  match r with
  | .ok sink2 => sink2
  | .error _ => sink

/-- A step argument is bad exactly when it is non-numeric (so `int()`
raises) or when it coerces to a negative integer. -/
def badStep (v : PyVal) : Bool :=
  match pyInt v with
  | .error _ => true
  | .ok n => decide (n < 0)

/-! ### Default histogram bins (`SummaryWriter.__init__`, `writer.py:234-241`)

The Python loop
```
v = 1E-12
buckets = []
neg_buckets = []
while v < 1E20:
    buckets.append(v)
    neg_buckets.append(-v)
    v *= 1.1
self.default_bins = neg_buckets[::-1] + [0] + buckets
```
is embedded over exact rationals with an explicit fuel bound standing in
for the unbounded `while`; the development proves the fuel is not what
stops the loop.  `neg_buckets` is `buckets.map (-·)` element for element,
since the loop appends `-v` exactly when it appends `v`. -/

/-- The `while v < 1E20: append v; v *= 1.1` loop, fuel-bounded. -/
def histBuckets (v : ℚ) : Nat → List ℚ
  | 0 => []
  | fuel + 1 => if v < 1e20 then v :: histBuckets (v * 1.1) fuel else []

/-- Fuel given to the bucket loop; shown ample below. -/
def bucketFuel : Nat := 1000

/-- The positive bucket edges `buckets`. -/
def buckets : List ℚ := histBuckets 1e-12 bucketFuel

/-- The assembled `default_bins = neg_buckets[::-1] + [0] + buckets`. -/
def default_bins : List ℚ := ((buckets.map (fun v => -v)).reverse) ++ [0] ++ buckets

/-! ### Text-tag registry (`SummaryWriter.add_text`, `writer.py:257-265`) -/

/-- The registry part of the `SummaryWriter` state: the in-memory
`text_tags` list and the history of writes of the sidecar file
`plugins/tensorboard_text/tensors.json` (each entry one `json.dump`ed
contents, most recent last). -/
structure TextState where
  text_tags : List String
  sidecarWrites : List (List String)
  deriving Repr, DecidableEq

/-- The registry side effect of one `add_text(tag, ...)` call: when the
tag was not seen before, it is appended to `text_tags` and the registry
is dumped to the sidecar file; otherwise nothing happens. -/
def addTextUpdate (st : TextState) (tag : String) : TextState :=
  if tag ∈ st.text_tags then st
  else
    let tags := st.text_tags ++ [tag]
    { text_tags := tags, sidecarWrites := st.sidecarWrites ++ [tags] }

/-- Run a sequence of `add_text` calls (identified by their tags) against
a fresh `SummaryWriter` (`text_tags = []`, no sidecar file written). -/
def runAddText : TextState → List String → TextState
  | st, [] => st
  | st, t :: ts => runAddText (addTextUpdate st t) ts

/-- The spec's description of the registry, stated independently of the
code: the distinct tags in order of first appearance. -/
def dedupFirst : List String → List String
  | [] => []
  | t :: ts => t :: dedupFirst (ts.filter (fun x => x ≠ t))
  termination_by l => l.length
  decreasing_by simp only [List.length_cons]; exact Nat.lt_succ_of_le (List.length_filter_le _ _)

/-! ### The asynchronous event writer and lifecycle
(`FileWriter`, `writer.py:126-214`; `SummaryWriter.close/__del__`,
`writer.py:299-305`; the contained `EventFileWriter` lives in
`event_file_writer.py`, which is not part of the writer module, so its
operations are modelled from the spec.) -/

/-- Modelled from the spec: the observable state of an `EventFileWriter`
(`event_file_writer.py`, not under the writer module): the bounded queue
of pending events, the events already written to the session file, and
whether the writer has been closed. -/
structure EFWState where
  queue : List Event
  written : List Event
  closed : Bool
  deriving Repr, DecidableEq

/-- Modelled from the spec: `EventFileWriter.flush` blocks until all
events enqueued before the call have been written to the session and the
session's data is on stable storage; on an already-closed writer there is
nothing pending (close drained the queue) and the call does nothing. -/
def EFWState.flush (s : EFWState) : EFWState :=
  if s.closed then s
  else { queue := [], written := s.written ++ s.queue, closed := false }

/-- Modelled from the spec: `EventFileWriter.close` signals the worker to
stop, drains the remaining queue fully (no data loss on graceful
shutdown), flushes and closes the session; it is idempotent — on an
already-closed writer it is a no-op, not an error. -/
def EFWState.close (s : EFWState) : EFWState :=
  if s.closed then s
  else { queue := [], written := s.written ++ s.queue, closed := true }

/-- Embedding of `FileWriter.flush` (`writer.py:195-200`): delegates to the contained
event writer. -/
def FileWriter.flush (s : EFWState) : EFWState := s.flush

/-- Embedding of `FileWriter.close` (`writer.py:202-206`): delegates to the contained
event writer. -/
def FileWriter.close (s : EFWState) : EFWState := s.close

/-- Embedding of `SummaryWriter.close` (`writer.py:299-301`):
`self.file_writer.flush()` then `self.file_writer.close()`. -/
def SummaryWriter.close (s : EFWState) : EFWState :=
  FileWriter.close (FileWriter.flush s)

/-- Embedding of `SummaryWriter.__del__` (`writer.py:303-305`): close the file writer
when it is still set (`if self.file_writer is not None`), do nothing
otherwise. -/
def SummaryWriter.del : Option EFWState → Option EFWState
  | some fw => some (FileWriter.close fw)
  | none => none

/-! ### Bounded-queue backpressure (`FileWriter.add_event`,
`writer.py:188-193`, delegating to the `EventFileWriter` queue;
modelled from the spec as a labelled transition system) -/

/-- Modelled from the spec: the queue-side state of a running
`EventFileWriter`: the configured capacity (`max_queue`), the FIFO queue
of pending events, and the events the worker has written so far. -/
structure EFWQState where
  capacity : Nat
  queue : List Event
  written : List Event
  deriving Repr, DecidableEq

/-- Modelled from the spec: a producer's `add_event e` placing the event
on the bounded queue.  The transition is enabled exactly when the queue is
below capacity; a producer whose enqueue is not enabled is blocked — it
waits, it never drops the event and never grows the queue past
capacity. -/
inductive EnqStep (e : Event) : EFWQState → EFWQState → Prop
  | mk (s : EFWQState) (h : s.queue.length < s.capacity) :
      EnqStep e s { s with queue := s.queue ++ [e] }

/-- Modelled from the spec: the single background worker consuming the
head of the FIFO queue and writing it to the session. -/
inductive DrainStep : EFWQState → EFWQState → Prop
  | mk (s : EFWQState) (e : Event) (rest : List Event) (h : s.queue = e :: rest) :
      DrainStep s { s with queue := rest, written := s.written ++ [e] }

/-- Any step of the writer system: some producer enqueues, or the worker
drains one event. -/
def WriterStep (s t : EFWQState) : Prop :=
  (∃ e, EnqStep e s t) ∨ DrainStep s t

/-! ### `SummaryWriter.add_all_variable_images` (`writer.py:280-297`)

The chainer graph traversal, the `isinstance`/pattern filters and
`make_grid` are external collaborators; the embedding starts from the
already-filtered traversed variable nodes execution reaches, each carrying
a resolved name and the shape of its (CPU) data array. -/

/-- A traversed variable node that passed the filters: its display name
and the shape of `variable.data` (`ndim` is the length of the shape). -/
structure VarNode where
  name : String
  shape : List Nat
  deriving Repr, DecidableEq

/-- The `data.ndim` of a node's data array. -/
def VarNode.ndim (n : VarNode) : Nat := n.shape.length

/-- The loop body of `add_all_variable_images` for one traversed node:
`assert data.ndim < 5` (an `AssertionError` carrying the source's
message), then for 4-dimensional data one `add_image` per leading index
with tag `name + '/' + str(i)` (each slice there has a 3-element shape,
so its `d.shape[0]` read at `writer.py:293` cannot fail); otherwise
`writer.py:296` first reads `data.shape[0]` — which raises `IndexError`
on a 0-dimensional array, whose shape is the empty tuple — and then emits
a single `add_image` with tag `name`.  The result lists the tags of the
images emitted for the node. -/
def processVarNode (n : VarNode) : Except String (List String) :=
  if 5 ≤ n.ndim then
    .error ("variable.data must be less than 5. the given variable.data.ndim is "
      ++ toString n.ndim ++ ".")
  else if n.ndim = 4 then
    .ok ((List.range (n.shape.headD 0)).map (fun i => n.name ++ "/" ++ toString i))
  else
    match n.shape.head? with
    | none => .error "IndexError: tuple index out of range"
    | some _ => .ok [n.name]

/-- Embedding of `add_all_variable_images` over the traversed nodes, in traversal
order; the first assertion failure aborts the call. -/
def addAllVariableImages : List VarNode → Except String (List String)
  | [] => .ok []
  | n :: ns => do
      let imgs ← processVarNode n
      let rest ← addAllVariableImages ns
      .ok (imgs ++ rest)

/-! ## Theorems -/

/-- Helper: the shape of a successful `_add_event`: exactly one event is
appended to the sink, stamped with the caller's clock, carrying the
payload it was handed. -/
theorem addEventTransform_ok_shape (now : ℚ) (e : Event) (step : Option PyVal)
    (sink sink2 : EventSink) (h : addEventTransform now e step sink = .ok sink2) :
    ∃ e2, sink2 = sink ++ [e2] ∧ e2.wall_time = now ∧ e2.payload = e.payload := by
  unfold addEventTransform at h
  cases step with
  | none =>
      simp only [pure, Except.pure, Except.bind, bind] at h
      refine ⟨{ e with wall_time := now }, ?_, rfl, rfl⟩
      injection h with h2
      exact h2.symm
  | some v =>
      cases hv : pyInt v with
      | error err => simp [hv, bind, Except.bind] at h
      | ok n =>
          simp only [hv, bind, Except.bind, Event.setStep] at h
          by_cases hn : n < 0
          · simp [hn] at h
          · simp only [hn, if_false] at h
            refine ⟨{ e with wall_time := now, step := some n }, ?_, rfl, rfl⟩
            injection h with h2
            exact h2.symm

/-- C1: a step value that is non-numeric or coerces to a negative integer
is rejected by `_add_event` with an invalid-argument failure raised to the
caller — never clamped, and the event writer's state is untouched. -/
theorem add_event_rejects_bad_step (now : ℚ) (e : Event) (v : PyVal)
    (sink : EventSink) (h : badStep v = true) :
    addEventTransform now e (some v) sink = Except.error .invalidArgument ∧
    runOrKeep sink (addEventTransform now e (some v) sink) = sink := by
  unfold badStep at h
  have hmain : addEventTransform now e (some v) sink = Except.error .invalidArgument := by
    unfold addEventTransform
    cases hv : pyInt v with
    | error err =>
        cases err
        simp [hv, bind, Except.bind]
    | ok n =>
        rw [hv] at h
        simp only [decide_eq_true_eq] at h
        simp [hv, bind, Except.bind, Event.setStep, h]
  exact ⟨hmain, by rw [hmain]; rfl⟩

/-- Witness for C1 at the concrete step value `-1`. -/
theorem add_event_rejects_bad_step_witness :
    badStep (.num (-1)) = true ∧
    addEventTransform 0 ⟨0, none, .summary ⟨[]⟩⟩ (some (.num (-1))) [] =
      Except.error .invalidArgument :=
  ⟨by decide, (add_event_rejects_bad_step 0 ⟨0, none, .summary ⟨[]⟩⟩ (.num (-1)) []
      (by decide)).1⟩

/-- C2: a malformed (non-coercible) step makes `add_summary` and
`add_session_log` fail synchronously at enqueue time with an
invalid-argument error; the event writer receives nothing and the caller's
state is unchanged.  `add_graph` never passes a step, so it cannot fail
this way: it always succeeds, handing over exactly one event. -/
theorem enqueue_malformed_step_fails_cleanly (now : ℚ) (arg : SummaryArg)
    (sl : SessionLog) (g : GraphDef) (v : PyVal) (sink : EventSink)
    (h : pyInt v = .error .invalidArgument) :
    add_summary now arg (some v) sink = Except.error .invalidArgument ∧
    runOrKeep sink (add_summary now arg (some v) sink) = sink ∧
    add_session_log now sl (some v) sink = Except.error .invalidArgument ∧
    runOrKeep sink (add_session_log now sl (some v) sink) = sink ∧
    add_graph now g sink =
      Except.ok (sink ++ [⟨now, none, .graphDef g.SerializeToString⟩]) := by
  have hbad : ∀ (e : Event),
      addEventTransform now e (some v) sink = Except.error .invalidArgument := by
    intro e
    unfold addEventTransform
    simp [h, bind, Except.bind]
  refine ⟨hbad _, ?_, hbad _, ?_, ?_⟩
  · unfold add_summary; rw [hbad]; rfl
  · unfold add_session_log; rw [hbad]; rfl
  · unfold add_graph addEventTransform
    simp [bind, Except.bind, pure, Except.pure]

/-- Witness for C2 at a concrete non-numeric step value. -/
theorem enqueue_malformed_step_fails_cleanly_witness :
    pyInt .nonNum = .error .invalidArgument ∧
    add_summary 0 (.msg ⟨[]⟩) (some .nonNum) [] = Except.error .invalidArgument :=
  ⟨rfl, (enqueue_malformed_step_fails_cleanly 0 (.msg ⟨[]⟩) ⟨[]⟩ ⟨[]⟩
      .nonNum [] rfl).1⟩

/-- C3: every event a wrapping call hands to the event writer carries as
its `wall_time` the caller's wall clock at the moment of the wrapping
call (`now`, the value `time.time()` returned synchronously on the
caller's thread at `writer.py:120`), set before the event reaches the
event writer; `add_summary`, `add_session_log` and `add_graph` all route
through `_add_event` and inherit this. -/
theorem wall_time_stamped_at_call (now : ℚ) (sink : EventSink) :
    (∀ (e : Event) (step : Option PyVal) (sink2 : EventSink),
        addEventTransform now e step sink = .ok sink2 →
        ∃ e2, sink2 = sink ++ [e2] ∧ e2.wall_time = now ∧ e2.payload = e.payload) ∧
    (∀ (arg : SummaryArg) (step : Option PyVal) (sink2 : EventSink),
        add_summary now arg step sink = .ok sink2 →
        ∃ e2, sink2 = sink ++ [e2] ∧ e2.wall_time = now) ∧
    (∀ (sl : SessionLog) (step : Option PyVal) (sink2 : EventSink),
        add_session_log now sl step sink = .ok sink2 →
        ∃ e2, sink2 = sink ++ [e2] ∧ e2.wall_time = now) ∧
    (∀ (g : GraphDef) (sink2 : EventSink),
        add_graph now g sink = .ok sink2 →
        ∃ e2, sink2 = sink ++ [e2] ∧ e2.wall_time = now) := by
  refine ⟨fun e step sink2 h => addEventTransform_ok_shape now e step sink sink2 h,
    fun arg step sink2 h => ?_, fun sl step sink2 h => ?_, fun g sink2 h => ?_⟩
  · obtain ⟨e2, h1, h2, _⟩ := addEventTransform_ok_shape now _ step sink sink2 h
    exact ⟨e2, h1, h2⟩
  · obtain ⟨e2, h1, h2, _⟩ := addEventTransform_ok_shape now _ step sink sink2 h
    exact ⟨e2, h1, h2⟩
  · obtain ⟨e2, h1, h2, _⟩ := addEventTransform_ok_shape now _ none sink sink2 h
    exact ⟨e2, h1, h2⟩

/-- Witness for C3 at a concrete clock value and summary. -/
theorem wall_time_stamped_at_call_witness :
    ∃ e2, ([] : EventSink) ++ [e2] = [e2] ∧ e2.wall_time = (7 : ℚ) := by
  obtain ⟨e2, h1, h2⟩ := (wall_time_stamped_at_call 7 []).2.1 (.msg ⟨[]⟩) none
    ([⟨7, none, .summary ⟨[]⟩⟩]) rfl
  exact ⟨e2, by simp, h2⟩

/-- C9: passing a summary in serialized byte form to `add_summary` is
indistinguishable from passing the structured record itself — the bytes
are parsed back (`writer.py:94-97`) to an equivalent record, so the event
handed to the event writer is the same. -/
theorem add_summary_bytes_roundtrip (now : ℚ) (s : Summary)
    (global_step : Option PyVal) (sink : EventSink) :
    add_summary now (.bytes s.SerializeToString) global_step sink =
      add_summary now (.msg s) global_step sink := by
  cases s; rfl

/-- C6: `SummaryWriter.close` flushes all pending events into the
session before closing it — afterwards the writer is closed, its queue is
empty and everything that was pending is written — and teardown
(`__del__`) of a writer whose `file_writer` is still set closes the file
writer. -/
theorem summary_close_flushes_and_closes (fw : EFWState) (h : fw.closed = false) :
    (SummaryWriter.close fw).closed = true ∧
    (SummaryWriter.close fw).written = fw.written ++ fw.queue ∧
    (SummaryWriter.close fw).queue = [] ∧
    (∀ s : EFWState, SummaryWriter.del (some s) = some (FileWriter.close s)) ∧
    (∀ s : EFWState, (FileWriter.close s).closed = true) := by
  refine ⟨?_, ?_, ?_, fun s => rfl, fun s => ?_⟩
  · simp [SummaryWriter.close, FileWriter.close, FileWriter.flush,
      EFWState.flush, EFWState.close, h]
  · simp [SummaryWriter.close, FileWriter.close, FileWriter.flush,
      EFWState.flush, EFWState.close, h]
  · simp [SummaryWriter.close, FileWriter.close, FileWriter.flush,
      EFWState.flush, EFWState.close, h]
  · by_cases hs : s.closed
    · simp [FileWriter.close, EFWState.close, hs]
    · simp [FileWriter.close, EFWState.close, hs]

/-- Witness for C6: closing a concrete open writer with one pending
event writes it and closes the writer. -/
theorem summary_close_flushes_and_closes_witness :
    (SummaryWriter.close ⟨[⟨0, none, .summary ⟨[]⟩⟩], [], false⟩).closed = true ∧
    (SummaryWriter.close ⟨[⟨0, none, .summary ⟨[]⟩⟩], [], false⟩).written =
      [] ++ [⟨0, none, .summary ⟨[]⟩⟩] :=
  ⟨(summary_close_flushes_and_closes ⟨[⟨0, none, .summary ⟨[]⟩⟩], [], false⟩ rfl).1,
   (summary_close_flushes_and_closes ⟨[⟨0, none, .summary ⟨[]⟩⟩], [], false⟩ rfl).2.1⟩

/-- C7: close is idempotent at every level: `FileWriter.close` on an
already-closed writer is a no-op (not an error — the operations are
total), a second `FileWriter.close` changes nothing, and a second
`SummaryWriter.close` changes nothing. -/
theorem close_idempotent :
    (∀ s : EFWState, s.closed = true → FileWriter.close s = s) ∧
    (∀ s : EFWState, FileWriter.close (FileWriter.close s) = FileWriter.close s) ∧
    (∀ s : EFWState, SummaryWriter.close (SummaryWriter.close s) = SummaryWriter.close s) := by
  have hclosed : ∀ s : EFWState, s.closed = true → FileWriter.close s = s := by
    intro s hs
    simp [FileWriter.close, EFWState.close, hs]
  have hcc : ∀ s : EFWState, (FileWriter.close s).closed = true := by
    intro s
    by_cases hs : s.closed
    · simp [FileWriter.close, EFWState.close, hs]
    · simp [FileWriter.close, EFWState.close, hs]
  have hflush : ∀ s : EFWState, s.closed = true → FileWriter.flush s = s := by
    intro s hs
    simp [FileWriter.flush, EFWState.flush, hs]
  refine ⟨hclosed, fun s => hclosed _ (hcc s), fun s => ?_⟩
  show FileWriter.close (FileWriter.flush (SummaryWriter.close s)) = SummaryWriter.close s
  have h1 : (SummaryWriter.close s).closed = true := hcc _
  rw [hflush _ h1, hclosed _ h1]

/-- Witness for C7 at a concrete closed writer. -/
theorem close_idempotent_witness :
    FileWriter.close (⟨[], [], true⟩ : EFWState) = ⟨[], [], true⟩ :=
  close_idempotent.1 ⟨[], [], true⟩ rfl

/-- Helper: a node of dimensionality between 1 and 4 passes both the
assertion and the `shape[0]` read. -/
theorem processVarNode_ok_of_dims (n : VarNode) (h1 : 1 ≤ n.ndim) (hn : n.ndim < 5) :
    ∃ imgs, processVarNode n = .ok imgs := by
  unfold processVarNode
  rw [if_neg (Nat.not_le.mpr hn)]
  by_cases h4 : n.ndim = 4
  · rw [if_pos h4]; exact ⟨_, rfl⟩
  · rw [if_neg h4]
    cases hs : n.shape with
    | nil =>
        exfalso
        have h0 : n.ndim = 0 := by simp [VarNode.ndim, hs]
        omega
    | cons a l => exact ⟨_, rfl⟩

/-- C10 counterexample: a 0-dimensional traversed node (empty shape,
e.g. a scalar loss variable) has `ndim < 4` but is not emitted as a
single image: reading `data.shape[0]` at `writer.py:296` raises
`IndexError` on the empty shape tuple before any image is emitted, so
the call fails rather than succeed. -/
theorem variable_images_zero_dim_counterexample :
    VarNode.ndim ⟨"loss", []⟩ = 0 ∧
    addAllVariableImages [⟨"loss", []⟩] =
      .error "IndexError: tuple index out of range" ∧
    ¬ ∃ imgs, addAllVariableImages [⟨"loss", []⟩] = .ok imgs := by
  refine ⟨rfl, rfl, ?_⟩
  rintro ⟨imgs, h⟩
  rw [show addAllVariableImages [⟨"loss", []⟩] =
    .error "IndexError: tuple index out of range" from rfl] at h
  exact Except.noConfusion h

/-- C10 (amended): `add_all_variable_images` accepts only data of
dimensionality at most 4: a traversed node with `ndim ≥ 5` makes the
call fail with the assertion error; for nodes with `ndim < 5` the
assertion cannot fire — the only failure left on such a node is the
`IndexError` from the `shape[0]` read; when every traversed node has
`1 ≤ ndim < 5` the call succeeds; a 4-dimensional node emits one image
per leading index (tags `name/0 .. name/(shape[0]-1)`); a node with 1 to
3 dimensions emits a single image; a 0-dimensional node raises
`IndexError` before emitting anything. -/
theorem variable_images_ndim_bound_amended :
    (∀ ns : List VarNode, (∀ n ∈ ns, 1 ≤ n.ndim ∧ n.ndim < 5) →
        ∃ imgs, addAllVariableImages ns = .ok imgs) ∧
    (∀ (ns : List VarNode) (n : VarNode), n ∈ ns → 5 ≤ n.ndim →
        ∃ msg, addAllVariableImages ns = .error msg) ∧
    (∀ (n : VarNode) (msg : String), n.ndim < 5 → processVarNode n = .error msg →
        msg = "IndexError: tuple index out of range") ∧
    (∀ n : VarNode, n.ndim = 4 →
        processVarNode n =
          .ok ((List.range (n.shape.headD 0)).map (fun i => n.name ++ "/" ++ toString i)) ∧
        ∀ imgs, processVarNode n = .ok imgs → imgs.length = n.shape.headD 0) ∧
    (∀ n : VarNode, 1 ≤ n.ndim → n.ndim < 4 → processVarNode n = .ok [n.name]) ∧
    (∀ n : VarNode, n.ndim = 0 →
        processVarNode n = .error "IndexError: tuple index out of range") := by
  refine ⟨?_, ?_, ?_, ?_, ?_, ?_⟩
  · intro ns h
    induction ns with
    | nil => exact ⟨[], rfl⟩
    | cons n ns ih =>
        obtain ⟨hn1, hn5⟩ := h n (List.mem_cons_self n ns)
        obtain ⟨imgs, hi⟩ := processVarNode_ok_of_dims n hn1 hn5
        obtain ⟨rest, hr⟩ := ih (fun m hm => h m (List.mem_cons_of_mem n hm))
        refine ⟨imgs ++ rest, ?_⟩
        unfold addAllVariableImages
        rw [hi]
        simp only [bind, Except.bind]
        rw [hr]
  · intro ns n hmem hn
    induction ns with
    | nil => cases hmem
    | cons m ns ih =>
        rcases List.mem_cons.mp hmem with rfl | hm
        · refine ⟨"variable.data must be less than 5. the given variable.data.ndim is "
            ++ toString n.ndim ++ ".", ?_⟩
          unfold addAllVariableImages processVarNode
          rw [if_pos hn]
          rfl
        · cases hp : processVarNode m with
          | error msg =>
              refine ⟨msg, ?_⟩
              unfold addAllVariableImages
              rw [hp]
              rfl
          | ok imgs =>
              obtain ⟨msg, hmsg⟩ := ih hm
              refine ⟨msg, ?_⟩
              unfold addAllVariableImages
              rw [hp]
              simp only [bind, Except.bind]
              rw [hmsg]
  · intro n msg h5 herr
    unfold processVarNode at herr
    rw [if_neg (Nat.not_le.mpr h5)] at herr
    by_cases h4 : n.ndim = 4
    · rw [if_pos h4] at herr
      exact Except.noConfusion herr
    · rw [if_neg h4] at herr
      cases hs : n.shape with
      | nil =>
          rw [hs] at herr
          injection herr with h2
          exact h2.symm
      | cons a l =>
          rw [hs] at herr
          exact Except.noConfusion herr
  · intro n h4
    have h5 : ¬ 5 ≤ n.ndim := by omega
    have heq : processVarNode n =
        .ok ((List.range (n.shape.headD 0)).map (fun i => n.name ++ "/" ++ toString i)) := by
      unfold processVarNode
      rw [if_neg h5, if_pos h4]
    refine ⟨heq, fun imgs him => ?_⟩
    rw [heq] at him
    injection him with him2
    simp [← him2]
  · intro n h1 h4
    unfold processVarNode
    rw [if_neg (by omega : ¬ 5 ≤ n.ndim), if_neg (by omega : ¬ n.ndim = 4)]
    cases hs : n.shape with
    | nil =>
        exfalso
        have h0 : n.ndim = 0 := by simp [VarNode.ndim, hs]
        omega
    | cons a l => rfl
  · intro n h0
    unfold processVarNode
    rw [if_neg (by omega : ¬ 5 ≤ n.ndim), if_neg (by omega : ¬ n.ndim = 4)]
    have hs : n.shape = [] := List.eq_nil_of_length_eq_zero h0
    rw [hs]
    rfl

/-- Witness for the amended C10: a 5-dimensional node trips the
assertion; a 4-dimensional plus a 2-dimensional node both succeed; a
0-dimensional node raises the `IndexError`. -/
theorem variable_images_ndim_bound_amended_witness :
    (∃ msg, addAllVariableImages [⟨"v", [1, 2, 3, 4, 5]⟩] = .error msg) ∧
    (∃ imgs, addAllVariableImages [⟨"w", [3, 1, 4, 4]⟩, ⟨"u", [2, 2]⟩] = .ok imgs) ∧
    processVarNode ⟨"s", []⟩ = .error "IndexError: tuple index out of range" :=
  ⟨variable_images_ndim_bound_amended.2.1 [⟨"v", [1, 2, 3, 4, 5]⟩]
      ⟨"v", [1, 2, 3, 4, 5]⟩ (List.mem_singleton.mpr rfl) (by decide),
   variable_images_ndim_bound_amended.1 [⟨"w", [3, 1, 4, 4]⟩, ⟨"u", [2, 2]⟩] (by decide),
   variable_images_ndim_bound_amended.2.2.2.2.2 ⟨"s", []⟩ rfl⟩

/-- Helper: running `add_text` calls extends `text_tags` by exactly the
not-yet-seen tags, in order of first appearance. -/
theorem runAddText_tags (calls : List String) : ∀ st : TextState,
    (runAddText st calls).text_tags =
      st.text_tags ++ dedupFirst (calls.filter (fun x => x ∉ st.text_tags)) := by
  induction calls with
  | nil => intro st; simp [runAddText, dedupFirst]
  | cons t ts ih =>
      intro st
      by_cases hmem : t ∈ st.text_tags
      · have hupd : addTextUpdate st t = st := by simp [addTextUpdate, hmem]
        have hfilter : (t :: ts).filter (fun x => decide (x ∉ st.text_tags)) =
            ts.filter (fun x => decide (x ∉ st.text_tags)) := by
          simp [List.filter_cons, hmem]
        calc (runAddText st (t :: ts)).text_tags
            = (runAddText (addTextUpdate st t) ts).text_tags := rfl
          _ = st.text_tags ++ dedupFirst (ts.filter (fun x => x ∉ st.text_tags)) := by
              rw [hupd]; exact ih st
          _ = st.text_tags ++
              dedupFirst ((t :: ts).filter (fun x => x ∉ st.text_tags)) := by
              rw [hfilter]
      · have hupd : (addTextUpdate st t).text_tags = st.text_tags ++ [t] ∧
            addTextUpdate st t =
              { text_tags := st.text_tags ++ [t],
                sidecarWrites := st.sidecarWrites ++ [st.text_tags ++ [t]] } := by
          simp [addTextUpdate, hmem]
        have hfilter2 : ts.filter (fun x => decide (x ∉ st.text_tags ++ [t])) =
            (ts.filter (fun x => decide (x ∉ st.text_tags))).filter
              (fun x => decide (x ≠ t)) := by
          rw [List.filter_filter]
          apply List.filter_congr
          intro x _
          rcases Decidable.em (x = t) with hx | hx
          · subst hx; simp
          · simp [hx, List.mem_append]
        calc (runAddText st (t :: ts)).text_tags
            = (runAddText (addTextUpdate st t) ts).text_tags := rfl
          _ = (addTextUpdate st t).text_tags ++
              dedupFirst (ts.filter (fun x => x ∉ (addTextUpdate st t).text_tags)) :=
              ih _
          _ = (st.text_tags ++ [t]) ++
              dedupFirst (ts.filter (fun x => x ∉ st.text_tags ++ [t])) := by
              rw [hupd.1]
          _ = st.text_tags ++
              (t :: dedupFirst ((ts.filter (fun x => x ∉ st.text_tags)).filter
                (fun x => x ≠ t))) := by
              rw [hfilter2, List.append_assoc]
              rfl
          _ = st.text_tags ++
              dedupFirst ((t :: ts).filter (fun x => x ∉ st.text_tags)) := by
              rw [List.filter_cons_of_pos (by simpa using hmem)]
              simp only [dedupFirst, hfilter2]

/-- Helper: one `add_text` call keeps the registry duplicate-free. -/
theorem addTextUpdate_nodup (st : TextState) (tag : String)
    (h : st.text_tags.Nodup) : (addTextUpdate st tag).text_tags.Nodup := by
  by_cases hmem : tag ∈ st.text_tags
  · simpa [addTextUpdate, hmem] using h
  · have : (st.text_tags ++ [tag]).Nodup := by
      refine List.Nodup.append h (List.nodup_singleton tag) ?_
      intro a ha hb
      rw [List.mem_singleton] at hb
      subst hb
      exact hmem ha
    simpa [addTextUpdate, hmem]

/-- C5: the `text_tags` registry holds the distinct tags in order of first
appearance and stays duplicate-free; a call with a seen tag changes
nothing (registry and sidecar untouched), while a call with a new tag
appends it and rewrites the sidecar file with the updated registry. -/
theorem text_tags_registry :
    (∀ calls : List String,
        (runAddText ⟨[], []⟩ calls).text_tags = dedupFirst calls) ∧
    (∀ (st : TextState) (calls : List String), st.text_tags.Nodup →
        (runAddText st calls).text_tags.Nodup) ∧
    (∀ (st : TextState) (tag : String), tag ∈ st.text_tags →
        addTextUpdate st tag = st) ∧
    (∀ (st : TextState) (tag : String), tag ∉ st.text_tags →
        (addTextUpdate st tag).text_tags = st.text_tags ++ [tag] ∧
        (addTextUpdate st tag).sidecarWrites =
          st.sidecarWrites ++ [st.text_tags ++ [tag]]) := by
  refine ⟨fun calls => ?_, fun st calls h => ?_, fun st tag h => ?_, fun st tag h => ?_⟩
  · have := runAddText_tags calls ⟨[], []⟩
    simpa using this
  · induction calls generalizing st with
    | nil => exact h
    | cons t ts ih => exact ih _ (addTextUpdate_nodup st t h)
  · simp [addTextUpdate, h]
  · simp [addTextUpdate, h]

/-- Witness for C5 on the concrete call sequence `["a", "b", "a"]`. -/
theorem text_tags_registry_witness :
    (runAddText ⟨[], []⟩ ["a", "b", "a"]).text_tags = dedupFirst ["a", "b", "a"] ∧
    addTextUpdate ⟨["a"], [["a"]]⟩ "a" = ⟨["a"], [["a"]]⟩ ∧
    (addTextUpdate ⟨["a"], [["a"]]⟩ "b").sidecarWrites = [["a"]] ++ [["a"] ++ ["b"]] :=
  ⟨text_tags_registry.1 ["a", "b", "a"],
   text_tags_registry.2.2.1 ⟨["a"], [["a"]]⟩ "a" (by decide),
   (text_tags_registry.2.2.2 ⟨["a"], [["a"]]⟩ "b" (by decide)).2⟩

/-- C8: the bounded queue never exceeds its capacity along any run, a
producer's enqueue is disabled (the producer blocks) exactly while the
queue is full, it becomes enabled again as soon as the worker drains one
slot, and no step drops an event: every step preserves the written-then
-pending sequence or extends it by the newly accepted event. -/
theorem bounded_queue_backpressure :
    (∀ s t : EFWQState, Relation.ReflTransGen WriterStep s t →
        s.queue.length ≤ s.capacity → t.queue.length ≤ t.capacity) ∧
    (∀ s : EFWQState, s.queue.length = s.capacity →
        ∀ (e : Event) (t : EFWQState), ¬ EnqStep e s t) ∧
    (∀ s t : EFWQState, DrainStep s t →
        t.capacity = s.capacity ∧ t.queue.length + 1 = s.queue.length) ∧
    (∀ s t : EFWQState, DrainStep s t → s.queue.length ≤ s.capacity →
        ∀ e : Event, ∃ u, EnqStep e t u) ∧
    (∀ s t : EFWQState, WriterStep s t →
        t.written ++ t.queue = s.written ++ s.queue ∨
        ∃ e, t.written ++ t.queue = s.written ++ s.queue ++ [e]) := by
  have hdrain : ∀ s t : EFWQState, DrainStep s t →
      t.capacity = s.capacity ∧ t.queue.length + 1 = s.queue.length := by
    intro s t h
    cases h with
    | mk e rest hq => exact ⟨rfl, by rw [hq]; simp⟩
  have hstep : ∀ s t : EFWQState, WriterStep s t →
      t.queue.length ≤ t.capacity ∨
      (s.queue.length ≤ s.capacity → t.queue.length ≤ t.capacity) := by
    intro s t h
    rcases h with ⟨e, he⟩ | hd
    · cases he with
      | mk hlt => left; simpa using hlt
    · right
      intro hle
      obtain ⟨hc, hl⟩ := hdrain s t hd
      omega
  refine ⟨?_, ?_, hdrain, ?_, ?_⟩
  · intro s t h
    induction h with
    | refl => exact fun h => h
    | tail _ hstep2 ih =>
        intro hs
        rcases hstep _ _ hstep2 with h1 | h2
        · exact h1
        · exact h2 (ih hs)
  · intro s hfull e t h
    cases h with
    | mk hlt => omega
  · intro s t hd hle e
    obtain ⟨hc, hl⟩ := hdrain s t hd
    exact ⟨_, EnqStep.mk t (by omega)⟩
  · intro s t h
    rcases h with ⟨e, he⟩ | hd
    · cases he with
      | mk hlt => right; exact ⟨e, by simp⟩
    · cases hd with
      | mk e rest hq => left; rw [hq]; simp

/-- Witness for C8: with capacity 1 and one pending event the enqueue of
a second event is blocked; the empty run keeps the bound. -/
theorem bounded_queue_backpressure_witness :
    (¬ EnqStep ⟨0, none, .summary ⟨[]⟩⟩
        ⟨1, [⟨0, none, .summary ⟨[]⟩⟩], []⟩
        ⟨1, [⟨0, none, .summary ⟨[]⟩⟩, ⟨0, none, .summary ⟨[]⟩⟩], []⟩) ∧
    (⟨1, [⟨0, none, .summary ⟨[]⟩⟩], []⟩ : EFWQState).queue.length ≤ 1 :=
  ⟨bounded_queue_backpressure.2.1 ⟨1, [⟨0, none, .summary ⟨[]⟩⟩], []⟩ rfl
      ⟨0, none, .summary ⟨[]⟩⟩ _,
   bounded_queue_backpressure.1 ⟨1, [⟨0, none, .summary ⟨[]⟩⟩], []⟩
      ⟨1, [⟨0, none, .summary ⟨[]⟩⟩], []⟩ Relation.ReflTransGen.refl (by decide)⟩

/-- Helper: one unfolding of the bucket loop. -/
theorem histBuckets_succ (v : ℚ) (n : Nat) :
    histBuckets v (n + 1) = if v < 1e20 then v :: histBuckets (v * 1.1) n else [] := rfl

/-- Helper: the loop's output starts at its starting value, if anywhere. -/
theorem histBuckets_head (fuel : Nat) (w : ℚ) :
    (histBuckets w fuel).head? = none ∨ (histBuckets w fuel).head? = some w := by
  cases fuel with
  | zero => left; rfl
  | succ n =>
      by_cases h : w < 1e20
      · right; rw [histBuckets_succ, if_pos h]; rfl
      · left; rw [histBuckets_succ, if_neg h]; rfl

/-- Helper: every loop output lies in `[v, 1e20)`. -/
theorem histBuckets_bounds : ∀ (fuel : Nat) (v : ℚ), 0 < v →
    ∀ x ∈ histBuckets v fuel, v ≤ x ∧ x < 1e20 := by
  intro fuel
  induction fuel with
  | zero => intro v _ x hx; cases hx
  | succ n ih =>
      intro v hv x hx
      by_cases h : v < 1e20
      · rw [histBuckets_succ, if_pos h] at hx
        rcases List.mem_cons.mp hx with rfl | hx2
        · exact ⟨le_refl x, h⟩
        · have hv2 : 0 < v * 1.1 := mul_pos hv (by norm_num)
          obtain ⟨h1, h2⟩ := ih (v * 1.1) hv2 x hx2
          exact ⟨le_trans (le_mul_of_one_le_right hv.le (by norm_num)) h1, h2⟩
      · rw [histBuckets_succ, if_neg h] at hx; cases hx

/-- Helper: consecutive loop outputs are in exact ratio `1.1`. -/
theorem histBuckets_chain_ratio : ∀ (fuel : Nat) (v : ℚ),
    List.Chain' (fun a b => b = a * 1.1) (histBuckets v fuel) := by
  intro fuel
  induction fuel with
  | zero => intro v; exact List.chain'_nil
  | succ n ih =>
      intro v
      by_cases h : v < 1e20
      · rw [histBuckets_succ, if_pos h, List.chain'_cons']
        refine ⟨fun b hb => ?_, ih (v * 1.1)⟩
        rcases histBuckets_head n (v * 1.1) with h0 | h0 <;> rw [h0] at hb <;>
          simp_all
      · rw [histBuckets_succ, if_neg h]; exact List.chain'_nil

/-- Helper: the loop output is strictly increasing. -/
theorem histBuckets_chain_lt : ∀ (fuel : Nat) (v : ℚ), 0 < v →
    List.Chain' (· < ·) (histBuckets v fuel) := by
  intro fuel
  induction fuel with
  | zero => intro v _; exact List.chain'_nil
  | succ n ih =>
      intro v hv
      by_cases h : v < 1e20
      · rw [histBuckets_succ, if_pos h, List.chain'_cons']
        refine ⟨fun b hb => ?_, ih (v * 1.1) (mul_pos hv (by norm_num))⟩
        rcases histBuckets_head n (v * 1.1) with h0 | h0 <;> rw [h0] at hb
        · cases hb
        · have : b = v * 1.1 := by simpa using hb.symm
          subst this
          exact lt_mul_of_one_lt_right hv (by norm_num)
      · rw [histBuckets_succ, if_neg h]; exact List.chain'_nil

/-- Helper: the loop emits at most `fuel` values. -/
theorem histBuckets_length_le : ∀ (fuel : Nat) (v : ℚ),
    (histBuckets v fuel).length ≤ fuel := by
  intro fuel
  induction fuel with
  | zero => intro v; exact Nat.le_refl 0
  | succ n ih =>
      intro v
      by_cases h : v < 1e20
      · rw [histBuckets_succ, if_pos h]
        simpa using Nat.succ_le_succ (ih (v * 1.1))
      · rw [histBuckets_succ, if_neg h]; exact Nat.zero_le _

/-- Helper: when the loop exhausts its fuel, every tested value — in
particular the last one, `v * 1.1 ^ (fuel - 1)` — passed the `< 1e20`
guard. -/
theorem histBuckets_full_fuel : ∀ (fuel : Nat) (v : ℚ),
    (histBuckets v fuel).length = fuel → fuel ≠ 0 → v * 1.1 ^ (fuel - 1) < 1e20 := by
  intro fuel
  induction fuel with
  | zero => intro v _ h0; exact absurd rfl h0
  | succ n ih =>
      intro v hlen _
      by_cases h : v < 1e20
      · rw [histBuckets_succ, if_pos h] at hlen
        simp only [List.length_cons] at hlen
        cases n with
        | zero => simpa using h
        | succ m =>
            have htail : (histBuckets (v * 1.1) (m + 1)).length = m + 1 := by omega
            have hrec := ih (v * 1.1) htail (Nat.succ_ne_zero m)
            have hexp : m + 1 + 1 - 1 = m + 1 := rfl
            calc v * 1.1 ^ (m + 1 + 1 - 1) = v * 1.1 ^ (m + 1) := by rw [hexp]
              _ = v * 1.1 * 1.1 ^ m := by ring
              _ < 1e20 := by simpa using hrec
      · rw [histBuckets_succ, if_neg h] at hlen
        simp at hlen

/-- Helper: `1.1^73 ≥ 10^3`, a small certificate for the growth rate of
the ratio, checkable on modest numbers. -/
theorem ratio_pow_base : (10 : ℚ) ^ 3 ≤ 1.1 ^ 73 := by
  have hnat : (10 : ℕ) ^ 76 ≤ 11 ^ 73 := by decide
  have hq : (10 : ℚ) ^ 76 ≤ 11 ^ 73 := by exact_mod_cast hnat
  rw [show (1.1 : ℚ) = 11 / 10 by norm_num, div_pow, le_div_iff₀ (by positivity)]
  calc (10 : ℚ) ^ 3 * 10 ^ 73 = 10 ^ 76 := by rw [← pow_add]
    _ ≤ 11 ^ 73 := hq

/-- Helper: `999` growth steps climb through more than the `10^32` span
between `1e-12` and `1e20`. -/
theorem ratio_pow_big : (10 : ℚ) ^ 32 ≤ 1.1 ^ 999 := by
  have h1 : ((10 : ℚ) ^ 3) ^ 13 ≤ (1.1 ^ 73) ^ 13 :=
    pow_le_pow_left₀ (by positivity) ratio_pow_base 13
  have h3 : (1 : ℚ) ≤ 1.1 ^ 50 := one_le_pow₀ (by norm_num)
  calc (10 : ℚ) ^ 32 ≤ 10 ^ 39 := by
        apply pow_le_pow_right₀ (by norm_num) (by norm_num)
    _ = ((10 : ℚ) ^ 3) ^ 13 := by rw [← pow_mul]
    _ ≤ (1.1 ^ 73) ^ 13 := h1
    _ = 1.1 ^ 949 := by rw [← pow_mul]
    _ = 1.1 ^ 949 * 1 := (mul_one _).symm
    _ ≤ 1.1 ^ 949 * 1.1 ^ 50 := by
        apply mul_le_mul_of_nonneg_left h3 (by positivity)
    _ = 1.1 ^ 999 := by rw [← pow_add]

/-- Helper: `1e-12 · 1.1^999 ≥ 1e20`: the `999`-th tested value already
overshoots the top of the range, so `bucketFuel = 1000` is more fuel than
the loop can use. -/
theorem bucketTop_reached : (1e20 : ℚ) ≤ 1e-12 * 1.1 ^ 999 := by
  calc (1e20 : ℚ) = 1e-12 * 10 ^ 32 := by norm_num
    _ ≤ 1e-12 * 1.1 ^ 999 := by
        apply mul_le_mul_of_nonneg_left ratio_pow_big (by norm_num)

/-- Helper: the bucket loop stops because its value crossed `1e20`, not
because the fuel ran out. -/
theorem buckets_length_lt_fuel : buckets.length < bucketFuel := by
  have hle := histBuckets_length_le bucketFuel 1e-12
  rcases Nat.lt_or_ge buckets.length bucketFuel with h | h
  · exact h
  · exfalso
    have heq : (histBuckets (1e-12 : ℚ) bucketFuel).length = bucketFuel :=
      Nat.le_antisymm hle h
    have := histBuckets_full_fuel bucketFuel 1e-12 heq (by decide)
    have h999 : bucketFuel - 1 = 999 := rfl
    rw [h999] at this
    exact absurd bucketTop_reached (not_le.mpr this)

/-- Helper: a nonempty loop output shorter than its fuel ends in a value
within one ratio step of `1e20`. -/
theorem histBuckets_last : ∀ (fuel : Nat) (v : ℚ), histBuckets v fuel ≠ [] →
    (histBuckets v fuel).length < fuel →
    ∃ l, (histBuckets v fuel).getLast? = some l ∧ (1e20 : ℚ) ≤ l * 1.1 := by
  intro fuel
  induction fuel with
  | zero => intro v hne _; exact absurd rfl hne
  | succ n ih =>
      intro v hne hlt
      by_cases h : v < 1e20
      · rw [histBuckets_succ, if_pos h] at hne hlt ⊢
        simp only [List.length_cons] at hlt
        have htlt : (histBuckets (v * 1.1) n).length < n := by omega
        cases htail : histBuckets (v * 1.1) n with
        | nil =>
            refine ⟨v, by simp [htail], ?_⟩
            cases n with
            | zero => omega
            | succ m =>
                by_cases hg : v * 1.1 < 1e20
                · rw [histBuckets_succ, if_pos hg] at htail
                  cases htail
                · exact not_lt.mp hg
        | cons b l =>
            obtain ⟨last, hlast, hge⟩ := ih (v * 1.1) (by rw [htail]; simp) htlt
            refine ⟨last, ?_, hge⟩
            rw [List.getLast?_cons_cons, ← htail]
            exact hlast
      · rw [histBuckets_succ, if_neg h] at hne
        exact absurd rfl hne

/-- Helper: every member of `buckets` lies in `[1e-12, 1e20)`, hence is
positive. -/
theorem buckets_mem_bounds : ∀ x ∈ buckets, (1e-12 : ℚ) ≤ x ∧ x < 1e20 :=
  histBuckets_bounds bucketFuel 1e-12 (by norm_num)

/-- Helper: members of `buckets` are positive. -/
theorem buckets_mem_pos : ∀ x ∈ buckets, (0 : ℚ) < x := fun x hx =>
  lt_of_lt_of_le (by norm_num) (buckets_mem_bounds x hx).1

/-- Helper: `buckets` is pairwise strictly increasing. -/
theorem buckets_pairwise_lt : List.Pairwise (· < ·) buckets :=
  List.chain'_iff_pairwise.mp (histBuckets_chain_lt bucketFuel 1e-12 (by norm_num))

/-- Helper: members of the mirrored negative prefix are negative. -/
theorem neg_buckets_mem_neg :
    ∀ x ∈ (buckets.map (fun v => -v)).reverse, x < (0 : ℚ) := by
  intro x hx
  rw [List.mem_reverse, List.mem_map] at hx
  obtain ⟨b, hb, rfl⟩ := hx
  simpa using buckets_mem_pos b hb

/-- C4: the default histogram bucket edges built at construction are
deterministic and well-shaped: strictly increasing, exactly one zero,
symmetric about `0`; the positive edges are exactly `buckets`, which
start at `1e-12`, grow by the exact ratio `1.1` between consecutive
edges, all lie in `[1e-12, 1e20)`, and reach the top of the range — one
more ratio step from the last edge meets or passes `1e20`. -/
theorem default_bins_shape :
    List.Pairwise (· < ·) default_bins ∧
    List.count 0 default_bins = 1 ∧
    (∀ x ∈ default_bins, -x ∈ default_bins) ∧
    default_bins.filter (fun x => decide ((0 : ℚ) < x)) = buckets ∧
    buckets.head? = some 1e-12 ∧
    List.Chain' (fun a b => b = a * 1.1) buckets ∧
    (∀ x ∈ buckets, (1e-12 : ℚ) ≤ x ∧ x < 1e20) ∧
    (∃ l, buckets.getLast? = some l ∧ (1e20 : ℚ) ≤ l * 1.1) := by
  have hnegrev := neg_buckets_mem_neg
  refine ⟨?_, ?_, ?_, ?_, ?_, histBuckets_chain_ratio bucketFuel 1e-12,
    buckets_mem_bounds, ?_⟩
  · unfold default_bins
    rw [List.pairwise_append, List.pairwise_append]
    refine ⟨⟨?_, List.pairwise_singleton _ _, ?_⟩, buckets_pairwise_lt, ?_⟩
    · rw [List.pairwise_reverse, List.pairwise_map]
      exact buckets_pairwise_lt.imp (fun h => neg_lt_neg h)
    · intro a ha b hb
      rw [List.mem_singleton] at hb
      subst hb
      exact hnegrev a ha
    · intro a ha b hb
      have hbpos := buckets_mem_pos b hb
      rcases List.mem_append.mp ha with ha2 | ha2
      · exact lt_trans (hnegrev a ha2) hbpos
      · rw [List.mem_singleton] at ha2; subst ha2; exact hbpos
  · unfold default_bins
    rw [List.count_append, List.count_append]
    have h1 : List.count (0 : ℚ) ((buckets.map (fun v => -v)).reverse) = 0 :=
      List.count_eq_zero.mpr (fun h => absurd (hnegrev 0 h) (lt_irrefl 0))
    have h2 : List.count (0 : ℚ) buckets = 0 :=
      List.count_eq_zero.mpr (fun h => absurd (buckets_mem_pos 0 h) (lt_irrefl 0))
    rw [h1, h2]
    simp
  · intro x hx
    unfold default_bins at hx ⊢
    rw [List.mem_append, List.mem_append] at hx
    rcases hx with (hx | hx) | hx
    · rw [List.mem_reverse, List.mem_map] at hx
      obtain ⟨b, hb, rfl⟩ := hx
      simp only [neg_neg]
      exact List.mem_append.mpr (Or.inr hb)
    · rw [List.mem_singleton] at hx
      subst hx
      simp
    · refine List.mem_append.mpr (Or.inl (List.mem_append.mpr (Or.inl ?_)))
      rw [List.mem_reverse, List.mem_map]
      exact ⟨x, hx, rfl⟩
  · unfold default_bins
    rw [List.filter_append, List.filter_append]
    have h1 : ((buckets.map (fun v => -v)).reverse).filter
        (fun x => decide ((0 : ℚ) < x)) = [] := by
      rw [List.filter_eq_nil_iff]
      intro a ha
      simpa using not_lt.mpr (le_of_lt (hnegrev a ha))
    have h2 : buckets.filter (fun x => decide ((0 : ℚ) < x)) = buckets :=
      List.filter_eq_self.mpr (fun a ha => by simpa using buckets_mem_pos a ha)
    rw [h1, h2]
    simp
  · show (histBuckets 1e-12 bucketFuel).head? = some 1e-12
    rw [show bucketFuel = 999 + 1 from rfl, histBuckets_succ, if_pos (by norm_num)]
    rfl
  · refine histBuckets_last bucketFuel 1e-12 ?_ buckets_length_lt_fuel
    show buckets ≠ []
    intro hnil
    have : buckets.head? = some 1e-12 := by
      show (histBuckets 1e-12 bucketFuel).head? = some 1e-12
      rw [show bucketFuel = 999 + 1 from rfl, histBuckets_succ, if_pos (by norm_num)]
      rfl
    rw [hnil] at this
    cases this

/-- Witness for C4: concrete instances of the symmetry and span facts at
the first positive edge `1e-12`. -/
theorem default_bins_shape_witness :
    (-(1e-12 : ℚ) ∈ default_bins) ∧
    ((1e-12 : ℚ) ≤ (1e-12 : ℚ) ∧ (1e-12 : ℚ) < 1e20) := by
  have hhead : buckets.head? = some 1e-12 := default_bins_shape.2.2.2.2.1
  have hmemb : (1e-12 : ℚ) ∈ buckets := by
    cases hb : buckets with
    | nil => rw [hb] at hhead; cases hhead
    | cons a l =>
        rw [hb] at hhead
        injection hhead with h2
        rw [h2]
        exact List.mem_cons_self _ l
  have hmem : (1e-12 : ℚ) ∈ default_bins := by
    unfold default_bins
    exact List.mem_append.mpr (Or.inr hmemb)
  exact ⟨default_bins_shape.2.2.1 1e-12 hmem,
    default_bins_shape.2.2.2.2.2.2.1 1e-12 hmemb⟩

end TbChainer
